import Mathlib

/-!
Verification of the stimulus-aligned spike extraction and histogram
(PSTH/raster) logic of the dandi-ai-notebooks/000563 repository against its
specification.  The notebooks repeat a handful of alignment routines; the
ones the specification is written from are embedded below, with event
timestamps modelled as rational numbers.  The specification's TrialAligner
component (align and histogram with argument validation) has no single
implementation in the repository, so it is modelled from the spec where
needed and compared with the embedded source routines.
-/

/-- A trial window: one stimulus presentation epoch, a (start_time, stop_time)
pair (spec section 3). -/
structure TrialWindow where
  start : ℚ
  stop : ℚ
  deriving DecidableEq

/-- Error taxonomy of the TrialAligner component (spec section 7). -/
inductive TrialAlignerError where
  | invalidArgument
  deriving DecidableEq

/-- A fixed-width binned firing-rate histogram (spec section 3): bin edges,
per-bin raw counts summed across trials, and per-bin rates in Hz. -/
structure Histogram where
  edges : List ℚ
  counts : List ℕ
  rates : List ℚ
  deriving DecidableEq

/-- Spike-selection mask of get_aligned_spikes in
v4/0.250311.2145/claude-3.7-sonnet-prompt-f-2/working/explore/05_barcode_visualization.py,
line 58: the events with stim_time - pre_stim <= t <= stim_time + post_stim
(closed on both sides, measured from the stimulus onset). -/
def aligned_mask (unit_spikes : List ℚ) (stim_time pre_stim post_stim : ℚ) : List ℚ :=
  unit_spikes.filter (fun t => stim_time - pre_stim ≤ t ∧ t ≤ stim_time + post_stim)

/-- Embedding of get_aligned_spikes (05_barcode_visualization.py, lines 53-64):
for each stimulus time in order, select the spikes in the closed retention
interval and re-express them relative to the stimulus onset; a stimulus with
no selected spike contributes an empty list. -/
def get_aligned_spikes (unit_spikes stim_times : List ℚ)
    (pre_stim post_stim : ℚ) : List (List ℚ) :=
  stim_times.map (fun stim_time =>
    let sel := aligned_mask unit_spikes stim_time pre_stim post_stim
    if 0 < sel.length then sel.map (fun t => t - stim_time) else [])

/-- Embedding of create_spike_raster
(claude-3.7-sonnet-prompt-e-2/working/notebook.py, lines 203-237): its
selection interval extends post_time beyond each stimulus STOP time, while
relative times are taken from the start time. -/
def create_spike_raster (spike_times stim_starts stim_stops : List ℚ)
    (pre_time post_time : ℚ) : List (List ℚ) :=
  (stim_starts.zip stim_stops).map (fun w =>
    (spike_times.filter (fun t => w.1 - pre_time ≤ t ∧ t ≤ w.2 + post_time)).map
      (fun t => t - w.1))

/-- Spike-selection mask of get_raster_data in
claude-3.7-sonnet-prompt-g-2/working/explore/explore_units.py (line 37), and of
create_raster_plot in the same variant's notebook.py (line 224):
start_time <= t < end_time, half-open on the right. -/
def raster_mask (spike_times : List ℚ) (start_time end_time : ℚ) : List ℚ :=
  spike_times.filter (fun t => start_time ≤ t ∧ t < end_time)

/-- Loop of get_raster_data (explore_units.py, lines 20-43): scan the trial
start times with their enumeration indices and, for every trial whose window
holds at least one spike, extend the flat trial-index and relative-time
accumulators. -/
def get_raster_data_loop (spike_times : List ℚ) (trial_window : ℚ) :
    ℕ → List ℚ → List ℕ × List ℚ
  | _, [] => ([], [])
  | i, start_time :: rest =>
    let spikes_in_window := raster_mask spike_times start_time (start_time + trial_window)
    let tail := get_raster_data_loop spike_times trial_window (i + 1) rest
    if 0 < spikes_in_window.length then
      (List.replicate spikes_in_window.length i ++ tail.1,
        spikes_in_window.map (fun t => t - start_time) ++ tail.2)
    else tail

/-- Embedding of get_raster_data (explore_units.py, lines 20-43): the two flat
arrays (trial indices, relative spike times) for a raster plot. -/
def get_raster_data (spike_times trial_start_times : List ℚ) (trial_window : ℚ) :
    List ℕ × List ℚ :=
  get_raster_data_loop spike_times trial_window 0 trial_start_times

/-- Embedding of numpy.arange over rationals for a positive step: the values
start + k * step for 0 <= k < ceil((stop - start) / step). -/
def arange (start stop step : ℚ) : List ℚ :=
  (List.range (⌈(stop - start) / step⌉).toNat).map
    (fun (k : ℕ) => start + (k : ℚ) * step)

/-- Embedding of numpy.histogram with explicit monotone bin edges: every bin is
half-open except the last, which is closed on the right; values outside the
edges are ignored.  numpy raises for fewer than two edges; here that case
yields no bins. -/
def npHistogram (values : List ℚ) : List ℚ → List ℕ
  | e₀ :: e₁ :: e₂ :: rest =>
    (values.filter (fun v => e₀ ≤ v ∧ v < e₁)).length ::
      npHistogram values (e₁ :: e₂ :: rest)
  | [e₀, e₁] => [(values.filter (fun v => e₀ ≤ v ∧ v ≤ e₁)).length]
  | _ => []

/-- Raw bin counts of create_psth
(claude-3.7-sonnet-prompt-e-2/working/notebook.py, lines 284-299) before rate
conversion: bin edges numpy.arange(t_start, t_end, bin_size), counts
accumulated across trials with counts += numpy.histogram(spikes, bins). -/
def psth_counts (aligned_spikes : List (List ℚ)) (bin_size t_start t_end : ℚ) :
    List ℕ :=
  aligned_spikes.foldl
    (fun counts spikes =>
      List.zipWith (· + ·) counts (npHistogram spikes (arange t_start t_end bin_size)))
    (List.replicate ((arange t_start t_end bin_size).length - 1) 0)

/-- Embedding of create_psth (notebook.py, lines 284-299): bin centers and the
firing rate counts / (bin_size * number of trials). -/
def create_psth (aligned_spikes : List (List ℚ)) (bin_size t_start t_end : ℚ) :
    List ℚ × List ℚ :=
  (((arange t_start t_end bin_size).take ((arange t_start t_end bin_size).length - 1)).map
      (fun b => b + bin_size / 2),
    (psth_counts aligned_spikes bin_size t_start t_end).map
      (fun (c : ℕ) => (c : ℚ) / (bin_size * (aligned_spikes.length : ℚ))))

/-- Embedding of the PSTH loop of
claude-3.7-sonnet-prompt-f-2/working/explore/06_compare_barcodes.py, lines
181-194: edges numpy.arange(-pre_stim, post_stim + bin_width, bin_width), one
histogram over the concatenation of all aligned trials, and rates
hist / (number of presentations * bin_width). -/
def psth_loop_rates (aligned_spikes : List (List ℚ)) (n_stim : ℕ)
    (pre_stim post_stim bin_width : ℚ) : List ℚ :=
  (npHistogram aligned_spikes.flatten
      (arange (-pre_stim) (post_stim + bin_width) bin_width)).map
    (fun (c : ℕ) => (c : ℚ) / ((n_stim : ℚ) * bin_width))

/-- Modelled from the spec: the TrialAligner align operation (spec section 4.1)
is absent as such from src, which holds only the ad hoc notebook variants
(get_aligned_spikes and create_spike_raster above); the margin validation with
an InvalidArgument failure is introduced by the spec (sections 7 and 9).  The
selection on valid margins follows the spec's words, which match
get_aligned_spikes. -/
def align (events : List ℚ) (windows : List TrialWindow)
    (pre_margin post_margin : ℚ) : Except TrialAlignerError (List (List ℚ)) :=
  if pre_margin < 0 ∨ post_margin < 0 then .error .invalidArgument
  else .ok (windows.map (fun w =>
    (events.filter (fun e => w.start - pre_margin ≤ e ∧ e ≤ w.start + post_margin)).map
      (fun e => e - w.start)))

/-- Modelled from the spec: the bin edges of the TrialAligner histogram
operation (spec section 4.1), which is absent as such from src (src holds only
the create_psth and 06_compare_barcodes.py variants above): range_start,
range_start + bin_width, ... stopping at or before range_end, so a final
fractional bin is discarded. -/
def histogram_edges (bin_width range_start range_end : ℚ) : List ℚ :=
  (List.range ((⌊(range_end - range_start) / bin_width⌋).toNat + 1)).map
    (fun (j : ℕ) => range_start + (j : ℚ) * bin_width)

/-- Modelled from the spec: the raw per-bin counts of the histogram operation,
each bin half-open, counts summed across all aligned trials. -/
def histogram_counts (aligned_trials : List (List ℚ))
    (bin_width range_start range_end : ℚ) : List ℕ :=
  (List.range (⌊(range_end - range_start) / bin_width⌋).toNat).map (fun (j : ℕ) =>
    (aligned_trials.map (fun tr => (tr.filter (fun v =>
      range_start + (j : ℚ) * bin_width ≤ v ∧
        v < range_start + ((j : ℚ) + 1) * bin_width)).length)).sum)

/-- Modelled from the spec: the TrialAligner histogram operation itself, with
the InvalidArgument conditions of spec sections 4.1 and 7 and rates
count / (n_trials * bin_width). -/
def histogram (aligned_trials : List (List ℚ))
    (bin_width range_start range_end : ℚ) : Except TrialAlignerError Histogram :=
  if bin_width ≤ 0 then .error .invalidArgument
  else if aligned_trials.length = 0 then .error .invalidArgument
  else .ok
    ⟨histogram_edges bin_width range_start range_end,
      histogram_counts aligned_trials bin_width range_start range_end,
      (histogram_counts aligned_trials bin_width range_start range_end).map
        (fun (c : ℕ) => (c : ℚ) / ((aligned_trials.length : ℚ) * bin_width))⟩

lemma getD_map_of_lt {α β : Type} (f : α → β) (l : List α) (i : ℕ) (d : α)
    (d' : β) (h : i < l.length) : (l.map f).getD i d' = f (l.getD i d) := by
  rw [List.getD_eq_getElem _ _ (by simpa using h), List.getD_eq_getElem _ _ h,
    List.getElem_map]

lemma get_aligned_spikes_getD (unit_spikes stim_times : List ℚ)
    (pre post : ℚ) (i : ℕ) (hi : i < stim_times.length) :
    (get_aligned_spikes unit_spikes stim_times pre post).getD i [] =
      (aligned_mask unit_spikes (stim_times.getD i 0) pre post).map
        (fun t => t - stim_times.getD i 0) := by
  unfold get_aligned_spikes
  rw [getD_map_of_lt _ _ i 0 [] hi]
  by_cases h : 0 < (aligned_mask unit_spikes (stim_times.getD i 0) pre post).length
  · simp only [h, if_true]
  · have h0 : aligned_mask unit_spikes (stim_times.getD i 0) pre post = [] := by
      cases hm : aligned_mask unit_spikes (stim_times.getD i 0) pre post with
      | nil => rfl
      | cons a l => rw [hm] at h; simp at h
    simp [h0]

lemma mem_get_aligned_spikes_getD (unit_spikes stim_times : List ℚ)
    (pre post : ℚ) (i : ℕ) (hi : i < stim_times.length) (x : ℚ) :
    x ∈ (get_aligned_spikes unit_spikes stim_times pre post).getD i [] ↔
      ∃ e ∈ unit_spikes,
        (stim_times.getD i 0 - pre ≤ e ∧ e ≤ stim_times.getD i 0 + post) ∧
          x = e - stim_times.getD i 0 := by
  rw [get_aligned_spikes_getD unit_spikes stim_times pre post i hi]
  simp only [List.mem_map, aligned_mask, List.mem_filter, decide_eq_true_eq]
  constructor
  · rintro ⟨e, ⟨he, hc⟩, rfl⟩
    exact ⟨e, he, hc, rfl⟩
  · rintro ⟨e, he, hc, rfl⟩
    exact ⟨e, ⟨he, hc⟩, rfl⟩

/-- C1: in get_aligned_spikes (the selection rule the spec's align fixes), an
event e enters trial i exactly when
stim_times[i] - pre <= e <= stim_times[i] + post (retention measured from the
window start), the emitted value is e - stim_times[i], and consequently every
emitted value lies in the closed interval [-pre, post]. -/
theorem get_aligned_spikes_selection (unit_spikes stim_times : List ℚ)
    (pre post : ℚ) (i : ℕ) (hi : i < stim_times.length) :
    (∀ x, x ∈ (get_aligned_spikes unit_spikes stim_times pre post).getD i [] ↔
      ∃ e ∈ unit_spikes,
        (stim_times.getD i 0 - pre ≤ e ∧ e ≤ stim_times.getD i 0 + post) ∧
          x = e - stim_times.getD i 0)
    ∧ ∀ x ∈ (get_aligned_spikes unit_spikes stim_times pre post).getD i [],
        -pre ≤ x ∧ x ≤ post := by
  refine ⟨mem_get_aligned_spikes_getD unit_spikes stim_times pre post i hi, ?_⟩
  intro x hx
  obtain ⟨e, _, ⟨h1, h2⟩, rfl⟩ :=
    (mem_get_aligned_spikes_getD unit_spikes stim_times pre post i hi x).mp hx
  constructor <;> linarith

/-- Witness for the C1 theorem: events [2], one stimulus at 2, margins 1; the
event is selected and emitted as 0. -/
theorem get_aligned_spikes_selection_witness :
    (0 : ℚ) ∈ (get_aligned_spikes [2] [2] 1 1).getD 0 [] :=
  ((get_aligned_spikes_selection [2] [2] 1 1 0 (by norm_num)).1 0).mpr
    ⟨2, by simp, ⟨by norm_num, by norm_num⟩, by norm_num⟩

/-- C2: exactly one aligned trial per window, in order: get_aligned_spikes
yields one list per stimulus time, and every successful align yields one list
per trial window, so empty trials are kept, never omitted. -/
theorem aligned_trial_count (unit_spikes stim_times : List ℚ) (pre post : ℚ)
    (events : List ℚ) (windows : List TrialWindow) (p q : ℚ) :
    (get_aligned_spikes unit_spikes stim_times pre post).length = stim_times.length
    ∧ ∀ ts, align events windows p q = .ok ts → ts.length = windows.length := by
  constructor
  · simp [get_aligned_spikes]
  · intro ts h
    unfold align at h
    by_cases hm : p < 0 ∨ q < 0
    · rw [if_pos hm] at h
      exact absurd h (by simp)
    · rw [if_neg hm] at h
      have := Except.ok.inj h
      rw [← this]
      simp

/-- Witness for the C2 theorem: one window, empty events, zero margins. -/
theorem aligned_trial_count_witness :
    ([([] : List ℚ)]).length = ([⟨0, 1⟩] : List TrialWindow).length :=
  (aligned_trial_count [] [] 0 0 [] [⟨0, 1⟩] 0 0).2 [[]]
    (by unfold align; norm_num)

/-- C3: histogram fails with InvalidArgument when bin_width <= 0, and fails
with InvalidArgument when zero aligned trials are passed in; no rate result is
produced on these inputs. -/
theorem histogram_invalid_args (aligned_trials : List (List ℚ))
    (bin_width rs re : ℚ) :
    (bin_width ≤ 0 →
      histogram aligned_trials bin_width rs re = .error .invalidArgument)
    ∧ (aligned_trials.length = 0 →
      histogram aligned_trials bin_width rs re = .error .invalidArgument) := by
  constructor
  · intro h
    unfold histogram
    rw [if_pos h]
  · intro h
    unfold histogram
    by_cases hb : bin_width ≤ 0
    · rw [if_pos hb]
    · rw [if_neg hb, if_pos h]

/-- Witness for the C3 theorem: bin width 0, and an empty trial list. -/
theorem histogram_invalid_args_witness :
    histogram [[0]] 0 0 1 = .error .invalidArgument
    ∧ histogram ([] : List (List ℚ)) 1 0 1 = .error .invalidArgument :=
  ⟨(histogram_invalid_args [[0]] 0 0 1).1 le_rfl,
    (histogram_invalid_args [] 1 0 1).2 rfl⟩

/-- C4: align fails with InvalidArgument whenever pre_margin < 0 or
post_margin < 0; the error is the whole result, so no alignment output is
produced. -/
theorem align_negative_margin (events : List ℚ) (windows : List TrialWindow)
    (pre post : ℚ) (h : pre < 0 ∨ post < 0) :
    align events windows pre post = .error .invalidArgument := by
  unfold align
  rw [if_pos h]

/-- Witness for the C4 theorem: pre_margin = -1 raises InvalidArgument. -/
theorem align_negative_margin_witness :
    align [] [] (-1) (1 / 10) = .error .invalidArgument :=
  align_negative_margin [] [] (-1) (1 / 10) (Or.inl (by norm_num))

/-- C8: empty events or empty windows are not error conditions for align with
non-negative margins: empty events over one window yield exactly one empty
trial, and empty windows yield an empty result; neither call fails. -/
theorem align_empty_inputs (events : List ℚ) (pre post : ℚ)
    (hpre : 0 ≤ pre) (hpost : 0 ≤ post) :
    align [] [⟨0, 1⟩] pre post = .ok [[]] ∧ align events [] pre post = .ok [] := by
  have hcond : ¬(pre < 0 ∨ post < 0) := by
    push_neg
    exact ⟨hpre, hpost⟩
  constructor
  · unfold align
    rw [if_neg hcond]
    simp
  · unfold align
    rw [if_neg hcond]
    simp

/-- Witness for the C8 theorem at margins 0 and events [5]. -/
theorem align_empty_inputs_witness :
    align [] [⟨0, 1⟩] 0 0 = .ok [[]] ∧ align [5] [] 0 0 = .ok [] :=
  align_empty_inputs [5] 0 0 le_rfl le_rfl

/-- C5: the spec's histogram on the aligned trials [[0.2, 0.25], []] with bin
width 0.1 over [0, 0.3) yields the three bins with edges 0, 0.1, 0.2, 0.3,
counts [0, 0, 2] and rates [0, 0, 10] Hz; the 06_compare_barcodes.py PSTH loop
computes the same rates on this input. -/
theorem histogram_concrete_bins :
    histogram [[(1 : ℚ)/5, 1/4], []] (1/10) 0 (3/10) =
      .ok ⟨[0, 1/10, 1/5, 3/10], [0, 0, 2], [0, 0, 10]⟩
    ∧ psth_loop_rates [[(1 : ℚ)/5, 1/4], []] 2 0 (3/10) (1/10) = [0, 0, 10] := by
  constructor
  · unfold histogram
    rw [if_neg (by norm_num), if_neg (by simp)]
    unfold histogram_edges histogram_counts
    rw [show ((3:ℚ)/10 - 0) / (1/10) = ((3:ℤ) : ℚ) by norm_num, Int.floor_intCast,
      show ((3:ℤ).toNat) = 3 from rfl,
      show List.range 3 = [0, 1, 2] from rfl,
      show List.range (3 + 1) = [0, 1, 2, 3] from rfl]
    simp only [List.map_cons, List.map_nil, List.filter_cons, List.filter_nil,
      List.sum_cons, List.sum_nil, List.length_cons, List.length_nil]
    norm_num
  · unfold psth_loop_rates arange
    rw [show (((3:ℚ)/10 + 1/10) - -0) / (1/10) = ((4:ℤ) : ℚ) by norm_num,
      Int.ceil_intCast, show ((4:ℤ).toNat) = 4 from rfl,
      show List.range 4 = [0, 1, 2, 3] from rfl]
    simp only [List.map_cons, List.map_nil, List.flatten]
    rw [show (-0:ℚ) + (0:ℕ) * (1/10) = 0 by norm_num,
      show (-0:ℚ) + (1:ℕ) * (1/10) = 1/10 by norm_num,
      show (-0:ℚ) + (2:ℕ) * (1/10) = 1/5 by norm_num,
      show (-0:ℚ) + (3:ℕ) * (1/10) = 3/10 by norm_num]
    simp only [npHistogram, List.filter_cons, List.filter_nil]
    norm_num

/-- C7: with events [5.05] and windows starting at 5.0 and 5.05, pre margin 0
and post margin 0.1, the single raw event appears in both aligned trials, as
0.05 and 0.0; and whenever the retention intervals of two trials are disjoint,
no raw event is selected for both of them. -/
theorem overlap_duplication :
    get_aligned_spikes [(101 : ℚ)/20] [5, 101/20] 0 (1/10) = [[1/20], [0]]
    ∧ ∀ (unit_spikes stim_times : List ℚ) (pre post : ℚ) (i j : ℕ) (e : ℚ),
        i < stim_times.length → j < stim_times.length →
        (stim_times.getD i 0 + post < stim_times.getD j 0 - pre ∨
          stim_times.getD j 0 + post < stim_times.getD i 0 - pre) →
        e ∈ unit_spikes →
        ¬((e - stim_times.getD i 0) ∈
            (get_aligned_spikes unit_spikes stim_times pre post).getD i []
          ∧ (e - stim_times.getD j 0) ∈
            (get_aligned_spikes unit_spikes stim_times pre post).getD j []) := by
  constructor
  · unfold get_aligned_spikes aligned_mask
    simp only [List.map_cons, List.map_nil, List.filter_cons, List.filter_nil]
    norm_num
  · intro unit_spikes stim_times pre post i j e hi hj hdisj he
    rintro ⟨hmi, hmj⟩
    obtain ⟨e₁, -, ⟨hi1, hi2⟩, heq₁⟩ :=
      (mem_get_aligned_spikes_getD unit_spikes stim_times pre post i hi _).mp hmi
    obtain ⟨e₂, -, ⟨hj1, hj2⟩, heq₂⟩ :=
      (mem_get_aligned_spikes_getD unit_spikes stim_times pre post j hj _).mp hmj
    have h₁ : e₁ = e := by linarith [sub_left_injective.eq_iff.mp heq₁]
    have h₂ : e₂ = e := by linarith [sub_left_injective.eq_iff.mp heq₂]
    subst h₁
    subst h₂
    rcases hdisj with h | h <;> linarith

/-- Witness for the C7 theorem's disjointness half: windows at 1 and 10 with
post margin 1 have disjoint retention intervals, and the event 1 is selected
only for the first. -/
theorem overlap_duplication_witness :
    ¬(((1 : ℚ) - List.getD [1, 10] 0 0) ∈ (get_aligned_spikes [1] [1, 10] 0 1).getD 0 []
      ∧ ((1 : ℚ) - List.getD [1, 10] 1 0) ∈ (get_aligned_spikes [1] [1, 10] 0 1).getD 1 []) :=
  overlap_duplication.2 [1] [1, 10] 0 1 0 1 1 (by norm_num) (by norm_num)
    (Or.inl (by norm_num [List.getD])) (by simp)

/-- C9: the single-window-size raster variants (get_raster_data,
create_raster_plot) select events half-open at the right boundary, so an event
exactly at the window end is excluded, while get_aligned_spikes keeps an event
exactly at stim_time + post_stim; with pre margin 0 and post margin equal to
the window size, the two selection rules differ exactly on events at the right
retention boundary. -/
theorem raster_boundary_halfopen (spikes : List ℚ) (s w e : ℚ) (hw : 0 ≤ w) :
    (e ∈ raster_mask spikes s (s + w) ↔ e ∈ spikes ∧ s ≤ e ∧ e < s + w)
    ∧ (s + w ∉ raster_mask spikes s (s + w))
    ∧ (s + w ∈ spikes → s + w ∈ aligned_mask spikes s 0 w)
    ∧ ∀ x ∈ spikes,
        ((x ∈ raster_mask spikes s (s + w) ↔ x ∈ aligned_mask spikes s 0 w) ↔
          x ≠ s + w) := by
  have hrast : ∀ x, x ∈ raster_mask spikes s (s + w) ↔ x ∈ spikes ∧ s ≤ x ∧ x < s + w := by
    intro x
    simp [raster_mask, List.mem_filter]
  have halig : ∀ x, x ∈ aligned_mask spikes s 0 w ↔ x ∈ spikes ∧ s - 0 ≤ x ∧ x ≤ s + w := by
    intro x
    simp [aligned_mask, List.mem_filter]
  refine ⟨hrast e, ?_, ?_, ?_⟩
  · intro hmem
    exact absurd ((hrast _).mp hmem).2.2 (lt_irrefl _)
  · intro hsw
    exact (halig _).mpr ⟨hsw, by linarith, le_rfl⟩
  · intro x hx
    constructor
    · intro hiff hxe
      subst hxe
      have : s + w ∈ raster_mask spikes s (s + w) :=
        hiff.mpr ((halig _).mpr ⟨hx, by linarith, le_rfl⟩)
      exact absurd ((hrast _).mp this).2.2 (lt_irrefl _)
    · intro hne
      rw [hrast, halig]
      constructor
      · rintro ⟨h1, h2, h3⟩
        exact ⟨h1, by linarith, le_of_lt h3⟩
      · rintro ⟨h1, h2, h3⟩
        exact ⟨h1, by linarith, lt_of_le_of_ne h3 hne⟩

/-- Witness for the C9 theorem: spikes at 0.5 and at the window end 1, window
[0, 1); the boundary spike is kept by the aligned_mask rule. -/
theorem raster_boundary_halfopen_witness :
    ((0 : ℚ) + 1) ∈ aligned_mask [1/2, 1] 0 0 1 :=
  (raster_boundary_halfopen [1/2, 1] 0 1 (1/2) (by norm_num)).2.2.1 (by norm_num)

lemma npHistogram_length (vs : List ℚ) : ∀ (edges : List ℚ),
    (npHistogram vs edges).length = edges.length - 1
  | [] => rfl
  | [_] => rfl
  | [_, _] => by simp [npHistogram]
  | e₀ :: e₁ :: e₂ :: rest => by
    simp only [npHistogram, List.length_cons]
    rw [npHistogram_length vs (e₁ :: e₂ :: rest)]
    simp

lemma length_filter_split (l : List ℚ) (P Q R : ℚ → Prop)
    [DecidablePred P] [DecidablePred Q] [DecidablePred R]
    (hiff : ∀ v, P v ↔ (Q v ∨ R v)) (hdisj : ∀ v, ¬(Q v ∧ R v)) :
    (l.filter (fun v => decide (P v))).length =
      (l.filter (fun v => decide (Q v))).length +
        (l.filter (fun v => decide (R v))).length := by
  induction l with
  | nil => simp
  | cons x l ih =>
    simp only [List.filter_cons]
    by_cases hq : Q x
    · have hp : P x := (hiff x).mpr (Or.inl hq)
      have hr : ¬R x := fun hr => hdisj x ⟨hq, hr⟩
      simp [hp, hq, hr, ih]
      omega
    · by_cases hr : R x
      · have hp : P x := (hiff x).mpr (Or.inr hr)
        simp [hp, hq, hr, ih]
        omega
      · have hp : ¬P x := fun hp => ((hiff x).mp hp).elim hq hr
        simp [hp, hq, hr, ih]

lemma npHistogram_sum (vs : List ℚ) (rest : List ℚ) : ∀ (a b : ℚ),
    List.Pairwise (· ≤ ·) (a :: b :: rest) →
    (npHistogram vs (a :: b :: rest)).sum =
      (vs.filter (fun v => a ≤ v ∧ v ≤ (b :: rest).getD rest.length 0)).length := by
  induction rest with
  | nil =>
    intro a b _
    simp [npHistogram]
  | cons c rest ih =>
    intro a b hp
    have hab : a ≤ b := (List.pairwise_cons.mp hp).1 b (by simp)
    have hp' : List.Pairwise (· ≤ ·) (b :: c :: rest) := (List.pairwise_cons.mp hp).2
    have hbL : b ≤ (c :: rest).getD rest.length 0 := by
      have hmem : (c :: rest).getD rest.length 0 ∈ c :: rest := by
        rw [List.getD_eq_getElem _ _ (by simp)]
        exact List.getElem_mem _
      exact (List.pairwise_cons.mp hp').1 _ hmem
    simp only [npHistogram, List.sum_cons]
    rw [ih b c hp']
    rw [show (b :: c :: rest).getD (c :: rest).length 0 = (c :: rest).getD rest.length 0 by
      simp [List.getD_cons_succ]]
    rw [length_filter_split vs
      (fun v => a ≤ v ∧ v ≤ (c :: rest).getD rest.length 0)
      (fun v => a ≤ v ∧ v < b)
      (fun v => b ≤ v ∧ v ≤ (c :: rest).getD rest.length 0)
      (fun v => by constructor
                   · rintro ⟨h1, h2⟩
                     rcases lt_or_le v b with h | h
                     · exact Or.inl ⟨h1, h⟩
                     · exact Or.inr ⟨h, h2⟩
                   · rintro (⟨h1, h2⟩ | ⟨h1, h2⟩)
                     · exact ⟨h1, le_trans (le_of_lt h2) hbL⟩
                     · exact ⟨le_trans hab h1, h2⟩)
      (fun v => by rintro ⟨⟨_, h2⟩, ⟨h3, _⟩⟩; exact absurd h2 (not_lt.mpr h3))]

lemma sum_zipWith_add : ∀ (xs ys : List ℕ), xs.length = ys.length →
    (List.zipWith (· + ·) xs ys).sum = xs.sum + ys.sum := by
  intro xs
  induction xs with
  | nil =>
    intro ys h
    have hys : ys = [] := List.eq_nil_of_length_eq_zero h.symm
    subst hys
    simp
  | cons x xs ih =>
    intro ys h
    cases ys with
    | nil => simp at h
    | cons y ys =>
      simp only [List.zipWith_cons_cons, List.sum_cons]
      rw [ih ys (by simpa using h)]
      omega

lemma foldl_zipWith_sum : ∀ (ls : List (List ℕ)) (acc : List ℕ),
    (∀ l ∈ ls, l.length = acc.length) →
    (ls.foldl (fun a b => List.zipWith (· + ·) a b) acc).sum =
      acc.sum + (ls.map List.sum).sum := by
  intro ls
  induction ls with
  | nil => intro acc _; simp
  | cons l ls ih =>
    intro acc h
    simp only [List.foldl_cons, List.map_cons, List.sum_cons]
    rw [ih (List.zipWith (· + ·) acc l) ?hlen]
    · rw [sum_zipWith_add acc l (h l (by simp)).symm]
      ring
    case hlen =>
      intro l' hl'
      rw [List.length_zipWith, h l (by simp), min_self]
      exact h l' (by simp [hl'])

lemma arange_pairwise (s e st : ℚ) (hst : 0 < st) :
    (arange s e st).Pairwise (· ≤ ·) := by
  unfold arange
  exact List.Pairwise.map _
    (fun a b (hab : a < b) => by
      have : (a : ℚ) ≤ (b : ℚ) := by exact_mod_cast le_of_lt hab
      nlinarith)
    (List.pairwise_lt_range _)

lemma arange_getD (s e st : ℚ) (j : ℕ) (hj : j < (arange s e st).length) :
    (arange s e st).getD j 0 = s + (j : ℚ) * st := by
  unfold arange at hj ⊢
  rw [List.getD_eq_getElem _ _ hj, List.getElem_map, List.getElem_range]

/-- C6 counterexample: for create_psth with the single trial [[0.25]], bin
width 0.1 and analysis range [0, 0.3), numpy.arange stops before 0.3, so the
bin edges are 0, 0.1, 0.2 only; the value 0.25 lies inside [0, 0.3) but inside
no bin, and the counts sum to 0 while [0, 0.3) holds one value. -/
theorem psth_counts_conservation_cex :
    ¬((psth_counts [[(1 : ℚ)/4]] (1/10) 0 (3/10)).sum =
      (([[(1 : ℚ)/4]]).map (fun tr => (tr.filter (fun v =>
        (0 : ℚ) ≤ v ∧ v < 3/10)).length)).sum) := by
  have h1 : (psth_counts [[(1 : ℚ)/4]] (1/10) 0 (3/10)).sum = 0 := by
    unfold psth_counts arange
    rw [show ((3:ℚ)/10 - 0) / (1/10) = ((3:ℤ) : ℚ) by norm_num, Int.ceil_intCast,
      show ((3:ℤ).toNat) = 3 from rfl, show List.range 3 = [0, 1, 2] from rfl]
    simp only [List.map_cons, List.map_nil, List.foldl_cons, List.foldl_nil,
      List.length_cons, List.length_nil]
    rw [show (0:ℚ) + (0:ℕ) * (1/10) = 0 by norm_num,
      show (0:ℚ) + (1:ℕ) * (1/10) = 1/10 by norm_num,
      show (0:ℚ) + (2:ℕ) * (1/10) = 1/5 by norm_num]
    simp only [npHistogram, List.filter_cons, List.filter_nil]
    norm_num [List.zipWith, List.replicate]
  have h2 : (([[(1 : ℚ)/4]]).map (fun tr => (tr.filter (fun v =>
      (0 : ℚ) ≤ v ∧ v < 3/10)).length)).sum = 1 := by
    simp only [List.map_cons, List.map_nil, List.filter_cons, List.filter_nil,
      List.sum_cons, List.sum_nil]
    norm_num
  rw [h1, h2]
  omega

/-- C6 amended: for a positive bin width and at least two numpy.arange edges,
the create_psth counts before rate conversion sum to the number of
relative-time values, across all trials, in the CLOSED interval from t_start
to the last edge t_start + (nedges - 1) * bin_size; that last edge lies
strictly below range_end, so values between it and range_end are dropped with
the discarded fractional bin, while a value exactly on the last edge is
counted because numpy's final bin is closed. -/
theorem psth_counts_conservation_amended (aligned : List (List ℚ))
    (bin_size t_start t_end : ℚ) (hpos : 0 < bin_size)
    (h2 : 2 ≤ (arange t_start t_end bin_size).length) :
    (psth_counts aligned bin_size t_start t_end).sum =
      (aligned.map (fun spikes => (spikes.filter (fun v =>
        t_start ≤ v ∧
          v ≤ t_start +
            (((arange t_start t_end bin_size).length - 1 : ℕ) : ℚ) * bin_size)).length)).sum := by
  obtain ⟨a, b, rest, hbins⟩ : ∃ a b rest, arange t_start t_end bin_size = a :: b :: rest := by
    cases hb : arange t_start t_end bin_size with
    | nil => rw [hb] at h2; simp at h2
    | cons a tl =>
      cases tl with
      | nil => rw [hb] at h2; simp at h2
      | cons b rest => exact ⟨a, b, rest, rfl⟩
  have ha : a = t_start := by
    have := arange_getD t_start t_end bin_size 0 (by rw [hbins]; simp)
    rw [hbins] at this
    simpa using this
  have hL : (b :: rest).getD rest.length 0 =
      t_start + ((rest.length + 1 : ℕ) : ℚ) * bin_size := by
    have := arange_getD t_start t_end bin_size (rest.length + 1)
      (by rw [hbins]; simp)
    rw [hbins, List.getD_cons_succ] at this
    rw [this]
  unfold psth_counts
  rw [← List.foldl_map
    (fun spikes => npHistogram spikes (arange t_start t_end bin_size))
    (fun a b => List.zipWith (· + ·) a b)]
  rw [foldl_zipWith_sum _ _ (by
    intro l hl
    simp only [List.mem_map] at hl
    obtain ⟨spikes, -, rfl⟩ := hl
    rw [npHistogram_length, List.length_replicate])]
  rw [List.sum_replicate, smul_zero, zero_add, List.map_map]
  refine congrArg List.sum (List.map_congr_left ?_)
  intro spikes _
  simp only [Function.comp_apply]
  rw [hbins, npHistogram_sum spikes rest a b
    (hbins ▸ arange_pairwise t_start t_end bin_size hpos)]
  simp only [ha, hL, List.length_cons, Nat.add_sub_cancel]

/-- Witness for the C6 amended theorem: one trial [[0.05]], bin width 0.1,
range [0, 0.3). -/
theorem psth_counts_conservation_amended_witness :
    (psth_counts [[(1 : ℚ)/20]] (1/10) 0 (3/10)).sum =
      ([[(1 : ℚ)/20]].map (fun spikes => (spikes.filter (fun v =>
        (0 : ℚ) ≤ v ∧
          v ≤ 0 +
            (((arange 0 (3/10) (1/10)).length - 1 : ℕ) : ℚ) * (1/10))).length)).sum :=
  psth_counts_conservation_amended [[(1 : ℚ)/20]] (1/10) 0 (3/10) (by norm_num)
    (by
      unfold arange
      rw [show ((3:ℚ)/10 - 0) / (1/10) = ((3:ℤ) : ℚ) by norm_num, Int.ceil_intCast]
      simp)

lemma get_raster_data_loop_spec (spike_times : List ℚ) (trial_window : ℚ) :
    ∀ (rest : List ℚ) (i0 : ℕ),
      ((get_raster_data_loop spike_times trial_window i0 rest).1.length =
        (get_raster_data_loop spike_times trial_window i0 rest).2.length)
      ∧ ∀ p ∈ (get_raster_data_loop spike_times trial_window i0 rest).1.zip
          (get_raster_data_loop spike_times trial_window i0 rest).2,
          ∃ j, j < rest.length ∧ p.1 = i0 + j ∧
            ∃ e ∈ spike_times,
              rest.getD j 0 ≤ e ∧ e < rest.getD j 0 + trial_window ∧
                p.2 = e - rest.getD j 0 := by
  intro rest
  induction rest with
  | nil =>
    intro i0
    constructor
    · rfl
    · intro p hp
      simp [get_raster_data_loop] at hp
  | cons s rest ih =>
    intro i0
    obtain ⟨ihlen, ihmem⟩ := ih (i0 + 1)
    by_cases hsel : 0 < (raster_mask spike_times s (s + trial_window)).length
    · have hloop : get_raster_data_loop spike_times trial_window i0 (s :: rest) =
          (List.replicate (raster_mask spike_times s (s + trial_window)).length i0 ++
            (get_raster_data_loop spike_times trial_window (i0 + 1) rest).1,
           (raster_mask spike_times s (s + trial_window)).map (fun t => t - s) ++
            (get_raster_data_loop spike_times trial_window (i0 + 1) rest).2) := by
        simp only [get_raster_data_loop]
        rw [if_pos hsel]
      rw [hloop]
      constructor
      · simp [ihlen]
      · intro p hp
        rw [List.zip_append (by simp)] at hp
        rcases List.mem_append.mp hp with hp | hp
        · have h1 := (List.of_mem_zip hp).1
          have h2 := (List.of_mem_zip hp).2
          have hp1 : p.1 = i0 := List.eq_of_mem_replicate h1
          obtain ⟨e, hemask, heq⟩ := List.mem_map.mp h2
          have hcond := hemask
          simp only [raster_mask, List.mem_filter, decide_eq_true_eq] at hcond
          refine ⟨0, by simp, by simp [hp1], e, hcond.1, ?_, ?_, ?_⟩
          · simpa using hcond.2.1
          · simpa using hcond.2.2
          · simp [← heq]
        · obtain ⟨j, hj, hpj, e, he, h1, h2, h3⟩ := ihmem p hp
          refine ⟨j + 1, by simpa using Nat.succ_lt_succ hj, by omega, e, he, ?_, ?_, ?_⟩
          · simpa [List.getD_cons_succ] using h1
          · simpa [List.getD_cons_succ] using h2
          · simpa [List.getD_cons_succ] using h3
    · have hloop : get_raster_data_loop spike_times trial_window i0 (s :: rest) =
          get_raster_data_loop spike_times trial_window (i0 + 1) rest := by
        simp only [get_raster_data_loop]
        rw [if_neg hsel]
      rw [hloop]
      constructor
      · exact ihlen
      · intro p hp
        obtain ⟨j, hj, hpj, e, he, h1, h2, h3⟩ := ihmem p hp
        refine ⟨j + 1, by simpa using Nat.succ_lt_succ hj, by omega, e, he, ?_, ?_, ?_⟩
        · simpa [List.getD_cons_succ] using h1
        · simpa [List.getD_cons_succ] using h2
        · simpa [List.getD_cons_succ] using h3

/-- C10: get_raster_data returns two equal-length flat sequences; every entry
pair has a trial index below the trial count and a relative time in
[0, trial_window) equal to e - trial_start_times[index] for some event e of
spike_times; and a trial whose window selects no spike contributes no entry. -/
theorem get_raster_data_invariants (spike_times trial_start_times : List ℚ)
    (trial_window : ℚ) :
    ((get_raster_data spike_times trial_start_times trial_window).1.length =
      (get_raster_data spike_times trial_start_times trial_window).2.length)
    ∧ (∀ p ∈ (get_raster_data spike_times trial_start_times trial_window).1.zip
        (get_raster_data spike_times trial_start_times trial_window).2,
        p.1 < trial_start_times.length
        ∧ 0 ≤ p.2 ∧ p.2 < trial_window
        ∧ ∃ e ∈ spike_times,
            p.2 = e - trial_start_times.getD p.1 0)
    ∧ ∀ i, i < trial_start_times.length →
        raster_mask spike_times (trial_start_times.getD i 0)
          (trial_start_times.getD i 0 + trial_window) = [] →
        i ∉ (get_raster_data spike_times trial_start_times trial_window).1 := by
  obtain ⟨hlen0, hmem0⟩ :=
    get_raster_data_loop_spec spike_times trial_window trial_start_times 0
  have hlen : (get_raster_data spike_times trial_start_times trial_window).1.length =
      (get_raster_data spike_times trial_start_times trial_window).2.length := hlen0
  have hmem : ∀ p ∈ (get_raster_data spike_times trial_start_times trial_window).1.zip
      (get_raster_data spike_times trial_start_times trial_window).2,
      ∃ j, j < trial_start_times.length ∧ p.1 = 0 + j ∧
        ∃ e ∈ spike_times,
          trial_start_times.getD j 0 ≤ e ∧
            e < trial_start_times.getD j 0 + trial_window ∧
              p.2 = e - trial_start_times.getD j 0 := hmem0
  refine ⟨hlen, ?_, ?_⟩
  · intro p hp
    obtain ⟨j, hj, hpj, e, he, h1, h2, h3⟩ := hmem p hp
    rw [Nat.zero_add] at hpj
    rw [hpj]
    exact ⟨hj, by rw [h3]; linarith, by rw [h3]; linarith, e, he, h3⟩
  · intro i hi hmask hmemi
    obtain ⟨k, hk, hxk⟩ := List.getElem_of_mem hmemi
    have hkzip : k < ((get_raster_data spike_times trial_start_times trial_window).1.zip
        (get_raster_data spike_times trial_start_times trial_window).2).length := by
      rw [List.length_zip, ← hlen, min_self]
      exact hk
    have hpzip : ((get_raster_data spike_times trial_start_times trial_window).1.zip
        (get_raster_data spike_times trial_start_times trial_window).2).get ⟨k, hkzip⟩ ∈
        (get_raster_data spike_times trial_start_times trial_window).1.zip
          (get_raster_data spike_times trial_start_times trial_window).2 :=
      List.get_mem _ _ hkzip
    have hfst : (((get_raster_data spike_times trial_start_times trial_window).1.zip
        (get_raster_data spike_times trial_start_times trial_window).2).get ⟨k, hkzip⟩).1 = i := by
      rw [List.get_eq_getElem, List.getElem_zip]
      exact hxk
    obtain ⟨j, hj, hpj, e, he, h1, h2, h3⟩ := hmem _ hpzip
    rw [hfst] at hpj
    have hji : j = i := by omega
    subst hji
    have hemask : e ∈ raster_mask spike_times (trial_start_times.getD j 0)
        (trial_start_times.getD j 0 + trial_window) := by
      simp only [raster_mask, List.mem_filter, decide_eq_true_eq]
      exact ⟨he, h1, h2⟩
    rw [hmask] at hemask
    exact absurd hemask (List.not_mem_nil e)

/-- Witness for the C10 theorem: one spike at 0.5, one trial starting at 0,
window 1; the single raster entry is (trial 0, relative time 0.5). -/
theorem get_raster_data_invariants_witness :
    ((0 : ℕ), (1 : ℚ)/2).1 < ([(0 : ℚ)] : List ℚ).length
    ∧ (0 : ℚ) ≤ ((0 : ℕ), (1 : ℚ)/2).2
    ∧ ((0 : ℕ), (1 : ℚ)/2).2 < 1
    ∧ ∃ e ∈ [(1 : ℚ)/2],
        ((0 : ℕ), (1 : ℚ)/2).2 = e - List.getD [(0 : ℚ)] ((0 : ℕ), (1 : ℚ)/2).1 0 :=
  (get_raster_data_invariants [1/2] [0] 1).2.1 ((0 : ℕ), (1 : ℚ)/2) (by
    have hev : get_raster_data [(1 : ℚ)/2] [0] 1 = ([0], [1/2]) := by
      simp only [get_raster_data, get_raster_data_loop, raster_mask,
        List.filter_cons, List.filter_nil]
      norm_num
    rw [hev]
    simp)

/-- On valid margins, the spec's align operation agrees with the src
get_aligned_spikes applied to the window start times, so the spec-modelled
operation refines the embedded source routine. -/
theorem align_ok_eq_get_aligned_spikes (events : List ℚ)
    (windows : List TrialWindow) (pre post : ℚ)
    (hpre : 0 ≤ pre) (hpost : 0 ≤ post) :
    align events windows pre post =
      .ok (get_aligned_spikes events (windows.map TrialWindow.start) pre post) := by
  have hcond : ¬(pre < 0 ∨ post < 0) := by
    push_neg
    exact ⟨hpre, hpost⟩
  unfold align
  rw [if_neg hcond]
  unfold get_aligned_spikes
  rw [List.map_map]
  congr 1
  apply List.map_congr_left
  intro w _
  simp only [Function.comp_apply]
  by_cases h : 0 < (aligned_mask events w.start pre post).length
  · rw [if_pos h]
    rfl
  · rw [if_neg h]
    have h0 : aligned_mask events w.start pre post = [] := by
      cases hm : aligned_mask events w.start pre post with
      | nil => rfl
      | cons a l => rw [hm] at h; simp at h
    unfold aligned_mask at h0
    rw [h0]
    rfl
